import Mathlib

/-
  Shallow embedding of the MarkovChain repository (src/text_processor.py,
  src/database.py, src/markov_model.py).

  Strings are modelled as `List Char`, Python dicts as functions or
  association lists, the PostgreSQL store as a record of row lists, and
  `random.choices` as an abstract sampler parameter.  All numeric counts are
  `Nat`; the probability values produced by the division in
  `get_overall_probabilities` / `get_markov_probabilities` are modelled
  exactly in `ℚ` (Python performs true division on integers here).
-/

/-- `TextProcessor.ALLOWED_CHARS`: the fixed alphabet
`set('абвгдеёжзийклмнопрстуфхцчшщъыьэюя ,.!?')`, modelled as a list. -/
def ALLOWED_CHARS : List Char := "абвгдеёжзийклмнопрстуфхцчшщъыьэюя ,.!?".toList

/-- Python `str.lower` restricted to the character ranges this program can
meet: ASCII capitals and Cyrillic capitals (А..Я and Ё).  Characters outside
these ranges are untouched. -/
def pyLower (c : Char) : Char :=
  if 'A' ≤ c ∧ c ≤ 'Z' then Char.ofNat (c.toNat + 32)
  else if 'А' ≤ c ∧ c ≤ 'Я' then Char.ofNat (c.toNat + 32)
  else if c = 'Ё' then 'ё'
  else c

/-- `re.sub(r'\s+', ' ', text)` on text whose only whitespace character is
`' '` (which is the case after the replacement step of `normalize_text`):
every maximal run of spaces is collapsed to a single space. -/
def collapseSpaces : List Char → List Char
  | [] => []
  | [c] => [c]
  | a :: b :: rest =>
    if a = ' ' ∧ b = ' ' then collapseSpaces (b :: rest)
    else a :: collapseSpaces (b :: rest)

/-- Python `str.strip()` on text whose only whitespace character is `' '`:
drop leading and trailing spaces. -/
def pyStrip (l : List Char) : List Char :=
  ((l.dropWhile (fun c => decide (c = ' '))).reverse.dropWhile
    (fun c => decide (c = ' '))).reverse

/-- `TextProcessor.normalize_text`: lowercase, replace every character not in
`ALLOWED_CHARS` by a space, collapse whitespace runs, strip. -/
def normalize_text (text : List Char) : List Char :=
  pyStrip (collapseSpaces
    ((text.map pyLower).map (fun c => if c ∈ ALLOWED_CHARS then c else ' ')))

/-- `TextProcessor.count_overall_frequencies`: a `defaultdict(int)` bumped
once per allowed character of the text, modelled as a total function that is
`0` outside the recorded keys. -/
def count_overall_frequencies (text : List Char) : Char → ℕ :=
  text.foldl
    (fun f ch =>
      if ch ∈ ALLOWED_CHARS then (fun c => if c = ch then f ch + 1 else f c)
      else f)
    (fun _ => 0)

/-- `TextProcessor.count_markov_frequencies`: for each start index
`i ∈ range(len(text) - n)` take `context = text[i:i+n]`,
`next_char = text[i+n]`, and bump `frequencies[context][next_char]` when
every character of the context and the next character are allowed.  The
nested `defaultdict` is modelled as a total function that is `0` outside the
recorded keys; a (context, symbol) pair is present as a dict entry exactly
when its count is positive. -/
def count_markov_frequencies (text : List Char) (n : ℕ) : List Char → Char → ℕ :=
  (List.range (text.length - n)).foldl
    (fun f i =>
      if (∀ x ∈ (text.drop i).take n, x ∈ ALLOWED_CHARS) ∧
          text.getD (i + n) ' ' ∈ ALLOWED_CHARS then
        fun c s =>
          if c = (text.drop i).take n ∧ s = text.getD (i + n) ' ' then
            f ((text.drop i).take n) (text.getD (i + n) ' ') + 1
          else f c s
      else f)
    (fun _ _ => 0)

/-- The persisted PostgreSQL state seen by `MarkovDatabase`: the
`overall_frequencies` table (symbol, frequency) and the thirteen `markov_n`
tables (context, symbol, frequency), indexed here by the order `n`. -/
structure MarkovDB where
  overall_frequencies : List (Char × ℕ)
  markov : ℕ → List (List Char × Char × ℕ)

/-- The rows returned by
`SELECT symbol, frequency FROM markov_n WHERE context = %s`. -/
def rowsFor (db : MarkovDB) (n : ℕ) (context : List Char) :
    List (List Char × Char × ℕ) :=
  (db.markov n).filter (fun r => r.1 = context)

/-- `total = sum(freq for _, freq in rows)` in
`MarkovDatabase.get_markov_probabilities`. -/
def totalFor (db : MarkovDB) (n : ℕ) (context : List Char) : ℕ :=
  ((rowsFor db n context).map (fun r => r.2.2)).sum

/-- `MarkovDatabase.get_markov_probabilities`: select the rows for the
context; return `{}` when there are none, otherwise map each row's symbol to
`freq / total if total > 0 else 0`. -/
def get_markov_probabilities (db : MarkovDB) (n : ℕ) (context : List Char) :
    List (Char × ℚ) :=
  if rowsFor db n context = [] then []
  else
    (rowsFor db n context).map
      (fun r =>
        (r.2.1,
          if 0 < totalFor db n context then
            (r.2.2 : ℚ) / (totalFor db n context : ℚ)
          else 0))

/-- `MarkovDatabase.get_overall_probabilities`: read every row of
`overall_frequencies` and map each symbol to `freq / total if total > 0 else 0`. -/
def get_overall_probabilities (db : MarkovDB) : List (Char × ℚ) :=
  db.overall_frequencies.map
    (fun r =>
      (r.1,
        if 0 < (db.overall_frequencies.map (fun q => q.2)).sum then
          (r.2 : ℚ) / ((db.overall_frequencies.map (fun q => q.2)).sum : ℚ)
        else 0))

/-- `MarkovModel.get_probabilities`: reject contexts of length 0 or above 13
without touching the store, otherwise query `markov_n` with `n = len(context)`. -/
def get_probabilities (db : MarkovDB) (context : List Char) : List (Char × ℚ) :=
  if context.length = 0 ∨ 13 < context.length then []
  else get_markov_probabilities db context.length context

/-- The flat row list `[(context, symbol, freq), ...]` built from a nested
frequency table by both save paths of `MarkovDatabase`. -/
def markovTableRows (frequencies : List (List Char × List (Char × ℕ))) :
    List (List Char × Char × ℕ) :=
  frequencies.flatMap (fun p => p.2.map (fun q => (p.1, q.1, q.2)))

/-- The chunked insert loop of `MarkovDatabase.save_markov_frequencies`:
`for i in range(0, len(data), 10000): insert data[i:i+10000]`, appending each
batch to the (truncated) table. -/
def chunkedInsert (table : List (List Char × Char × ℕ))
    (data : List (List Char × Char × ℕ)) : List (List Char × Char × ℕ) :=
  if data = [] then table
  else chunkedInsert (table ++ data.take 10000) (data.drop 10000)
termination_by data.length
decreasing_by
  simp only [List.length_drop]
  have hpos : 0 < data.length := List.length_pos.mpr (by assumption)
  omega

/-- `MarkovDatabase.save_markov_frequencies` (batched strategy, success
path): truncate `markov_n`, then insert all rows in batches of 10000. -/
def save_markov_frequencies (db : MarkovDB) (n : ℕ)
    (frequencies : List (List Char × List (Char × ℕ))) : MarkovDB :=
  { db with
    markov := fun m =>
      if m = n then chunkedInsert [] (markovTableRows frequencies)
      else db.markov m }

/-- `MarkovDatabase.save_markov_frequencies_bulk` (bulk strategy, success
path): truncate `markov_n`, then COPY the whole CSV-staged row list in one
transaction. -/
def save_markov_frequencies_bulk (db : MarkovDB) (n : ℕ)
    (frequencies : List (List Char × List (Char × ℕ))) : MarkovDB :=
  { db with
    markov := fun m =>
      if m = n then markovTableRows frequencies
      else db.markov m }

/-- Python `l[-k:]` (and `seed[-min(len(seed),k):]`) for a nonzero `k`:
the last `min(len(l), k)` elements. -/
def lastN (k : ℕ) (l : List Char) : List Char := l.drop (l.length - k)

/-- The back-off `while` loop of `MarkovModel.generate_text`: query the
current context; while the result is empty and the context is longer than
one character, drop the context's leading character and re-query.  Returns
the distribution found together with the context the loop stopped at (the
loop mutates `current_context` in place). -/
def backoff (db : MarkovDB) : List Char → List (Char × ℚ) × List Char
  | [] => (get_probabilities db [], [])
  | c :: rest =>
    if get_probabilities db (c :: rest) = [] ∧ rest ≠ [] then backoff db rest
    else (get_probabilities db (c :: rest), c :: rest)

/-- One iteration of the generation loop of `MarkovModel.generate_text`:
back off the context, fall back to the overall distribution if every
suffix was unseen, then either sample via `random.choices` (modelled by the
abstract `pick`) or emit the default `' '`; finally keep the last 13
characters of context-plus-emitted-symbol as the new context. -/
def genStep (db : MarkovDB) (pick : List (Char × ℚ) → Char)
    (context : List Char) : Char × List Char :=
  let r := backoff db context
  let probs := if r.1 = [] then get_overall_probabilities db else r.1
  let next := if probs = [] then ' ' else pick probs
  (next, lastN 13 (r.2 ++ [next]))

/-- The `for i in range(length)` loop of `MarkovModel.generate_text`,
threading the accumulated output and the current context. -/
def genLoop (db : MarkovDB) (pick : ℕ → List (Char × ℚ) → Char) :
    ℕ → ℕ → List Char → List Char → List Char
  | _, 0, result, _ => result
  | i, k + 1, result, context =>
    genLoop db pick (i + 1) k (result ++ [(genStep db (pick i) context).1])
      (genStep db (pick i) context).2

/-- `MarkovModel.generate_text`: start from the full seed as output and the
last `min(len(seed), 13)` characters of the seed as context, then append
exactly `length` sampled symbols. -/
def generate_text (db : MarkovDB) (pick : ℕ → List (Char × ℚ) → Char)
    (seed : List Char) (length : ℕ) : List Char :=
  genLoop db pick 0 length seed (seed.drop (seed.length - min seed.length 13))

/-- The primitive statements `save_markov_frequencies_bulk` issues against
one `markov_n` table inside a single psycopg2 transaction
(`autocommit = False`): `TRUNCATE`, one staged row insertion per COPY row,
and the final `conn.commit()`. -/
inductive DBOp where
  | truncate : DBOp
  | insert : (List Char × Char × ℕ) → DBOp
  | commit : DBOp

/-- Transactional state of one table: the rows visible to other sessions
(`committed`) and the rows of the open transaction (`buffer`). -/
structure TxState where
  committed : List (List Char × Char × ℕ)
  buffer : List (List Char × Char × ℕ)

/-- Effect of one statement: `TRUNCATE` and row insertion act on the open
transaction's buffer; `commit` publishes the buffer. -/
def applyOp (s : TxState) : DBOp → TxState
  | DBOp.truncate => { s with buffer := [] }
  | DBOp.insert r => { s with buffer := s.buffer ++ [r] }
  | DBOp.commit => { s with committed := s.buffer }

/-- Run a statement sequence inside one transaction. -/
def runOps (s : TxState) (ops : List DBOp) : TxState := ops.foldl applyOp s

/-- The statement sequence of `save_markov_frequencies_bulk`: truncate,
stage every row through COPY, commit once at the very end. -/
def bulkLoadOps (frequencies : List (List Char × List (Char × ℕ))) :
    List DBOp :=
  DBOp.truncate :: ((markovTableRows frequencies).map DBOp.insert ++ [DBOp.commit])

/-- A storage failure after the first `k` statements of `ops` executed: the
`except` branch of `save_markov_frequencies_bulk` calls `conn.rollback()`,
which discards the open transaction's buffer, so the table afterwards holds
exactly the rows committed so far. -/
def runWithFailureAt (s : TxState) (ops : List DBOp) (k : ℕ) :
    List (List Char × Char × ℕ) :=
  (runOps s (ops.take k)).committed

/-- "No two consecutive spaces" for a character list. -/
def noDoubleSpace (l : List Char) : Prop :=
  List.Chain' (fun a b => ¬(a = ' ' ∧ b = ' ')) l

/-- A database with an empty overall table and a single order-1 row
`markov_1 = {('а', 'м', 2)}`, used for concrete instances. -/
def dbOrder1 : MarkovDB :=
  { overall_frequencies := [], markov := fun m => if m = 1 then [(['а'], 'м', 2)] else [] }

/-- The order table `{'м': {'а': 2}}`, used for concrete instances. -/
def tableT0 : List (List Char × List (Char × ℕ)) := [(['м'], [('а', 2)])]

/-- A concrete deterministic sampler: take the first candidate. -/
def pickFst : List (Char × ℚ) → Char := fun l => (l.headD (' ', 0)).1

/-- The concrete sampler stream used for witnesses. -/
def pickFstSeq : ℕ → List (Char × ℚ) → Char := fun _ => pickFst

/-! ### Normalizer lemmas -/

theorem pyLower_fixes_allowed : ∀ c ∈ ALLOWED_CHARS, pyLower c = c := by decide

theorem space_mem_allowed : ' ' ∈ ALLOWED_CHARS := by decide

theorem mem_replaced {t : List Char} {c : Char}
    (h : c ∈ (t.map pyLower).map (fun x => if x ∈ ALLOWED_CHARS then x else ' ')) :
    c ∈ ALLOWED_CHARS := by
  rcases List.mem_map.mp h with ⟨x, _, hx⟩
  rw [← hx]
  split
  · assumption
  · exact space_mem_allowed

theorem mem_collapseSpaces : ∀ (l : List Char) (c : Char), c ∈ collapseSpaces l → c ∈ l
  | [], _, h => by simp [collapseSpaces] at h
  | [a], _, h => by simpa [collapseSpaces] using h
  | a :: b :: rest, c, h => by
    rw [collapseSpaces] at h
    by_cases hc : a = ' ' ∧ b = ' '
    · rw [if_pos hc] at h
      exact List.mem_cons_of_mem _ (mem_collapseSpaces (b :: rest) c h)
    · rw [if_neg hc] at h
      rcases List.mem_cons.mp h with h1 | h2
      · exact h1 ▸ List.mem_cons_self _ _
      · exact List.mem_cons_of_mem _ (mem_collapseSpaces (b :: rest) c h2)

theorem head?_collapseSpaces : ∀ (a : Char) (l : List Char),
    (collapseSpaces (a :: l)).head? = some a
  | _, [] => by simp [collapseSpaces]
  | a, b :: rest => by
    rw [collapseSpaces]
    by_cases hc : a = ' ' ∧ b = ' '
    · rw [if_pos hc, head?_collapseSpaces b rest, hc.1, hc.2]
    · rw [if_neg hc]
      simp

theorem chain'_collapseSpaces :
    ∀ l : List Char, noDoubleSpace (collapseSpaces l)
  | [] => by simp [collapseSpaces, noDoubleSpace]
  | [a] => by simp [collapseSpaces, noDoubleSpace]
  | a :: b :: rest => by
    rw [noDoubleSpace, collapseSpaces]
    by_cases hc : a = ' ' ∧ b = ' '
    · rw [if_pos hc]
      exact chain'_collapseSpaces (b :: rest)
    · rw [if_neg hc]
      refine List.chain'_cons'.mpr ⟨?_, chain'_collapseSpaces (b :: rest)⟩
      intro y hy
      rw [head?_collapseSpaces b rest, Option.mem_def, Option.some.injEq] at hy
      intro hab
      exact hc ⟨hab.1, hy ▸ hab.2⟩

theorem collapseSpaces_eq_self :
    ∀ l : List Char, noDoubleSpace l → collapseSpaces l = l
  | [], _ => by simp [collapseSpaces]
  | [a], _ => by simp [collapseSpaces]
  | a :: b :: rest, h => by
    rw [noDoubleSpace] at h
    rw [collapseSpaces, if_neg (List.chain'_cons.mp h).1,
      collapseSpaces_eq_self (b :: rest) (List.Chain'.tail h)]

theorem chain'_dropWhile {R : Char → Char → Prop} (p : Char → Bool) :
    ∀ l : List Char, List.Chain' R l → List.Chain' R (l.dropWhile p)
  | [], h => h
  | a :: rest, h => by
    rw [List.dropWhile_cons]
    split
    · exact chain'_dropWhile p rest (List.Chain'.tail h)
    · exact h

theorem noDoubleSpace_reverse {l : List Char} (h : noDoubleSpace l) :
    noDoubleSpace l.reverse := by
  rw [noDoubleSpace] at h ⊢
  rw [List.chain'_reverse]
  exact h.imp (fun a b hab hba => hab ⟨hba.2, hba.1⟩)

theorem noDoubleSpace_pyStrip {l : List Char} (h : noDoubleSpace l) :
    noDoubleSpace (pyStrip l) := by
  rw [pyStrip]
  exact noDoubleSpace_reverse
    (chain'_dropWhile _ _ (noDoubleSpace_reverse (chain'_dropWhile _ _ h)))

theorem mem_pyStrip {l : List Char} {c : Char} (h : c ∈ pyStrip l) : c ∈ l := by
  rw [pyStrip, List.mem_reverse] at h
  exact (List.dropWhile_sublist _).subset
    (List.mem_reverse.mp ((List.dropWhile_sublist _).subset h))

theorem pyStrip_eq_take (l : List Char) :
    ∃ m, pyStrip l = (l.dropWhile (fun c => decide (c = ' '))).take m := by
  refine ⟨(l.dropWhile (fun c => decide (c = ' '))).length -
    ((l.dropWhile (fun c => decide (c = ' '))).reverse.findIdx
      (fun a => !(decide (a = ' ')))), ?_⟩
  rw [pyStrip, List.dropWhile_eq_drop_findIdx_not, List.drop_reverse,
    List.reverse_reverse]

theorem head?_pyStrip {l : List Char} {x : Char} (h : (pyStrip l).head? = some x) :
    ¬ x = ' ' := by
  obtain ⟨m, hm⟩ := pyStrip_eq_take l
  rw [hm, List.head?_take] at h
  split at h
  · exact absurd h (by simp)
  · have hd := List.head?_dropWhile_not (fun c => decide (c = ' ')) l
    rw [h] at hd
    simpa using hd

theorem getLast?_pyStrip {l : List Char} {x : Char}
    (h : (pyStrip l).getLast? = some x) : ¬ x = ' ' := by
  rw [pyStrip, List.getLast?_reverse] at h
  have hd := List.head?_dropWhile_not (fun c => decide (c = ' '))
    ((l.dropWhile (fun c => decide (c = ' '))).reverse)
  rw [h] at hd
  simpa using hd

theorem dropWhile_eq_self_of_head {l : List Char}
    (h : ∀ x, l.head? = some x → ¬ x = ' ') :
    l.dropWhile (fun c => decide (c = ' ')) = l := by
  cases l with
  | nil => rfl
  | cons a rest =>
    rw [List.dropWhile_cons_of_neg]
    simpa using h a rfl

theorem pyStrip_eq_self {l : List Char}
    (h1 : ∀ x, l.head? = some x → ¬ x = ' ')
    (h2 : ∀ x, l.getLast? = some x → ¬ x = ' ') :
    pyStrip l = l := by
  rw [pyStrip, dropWhile_eq_self_of_head h1, dropWhile_eq_self_of_head
    (by simpa using h2), List.reverse_reverse]

theorem normalize_text_mem {t : List Char} {c : Char} (h : c ∈ normalize_text t) :
    c ∈ ALLOWED_CHARS := by
  rw [normalize_text] at h
  exact mem_replaced (mem_collapseSpaces _ c (mem_pyStrip h))

theorem normalize_text_noDoubleSpace (t : List Char) :
    noDoubleSpace (normalize_text t) := by
  rw [normalize_text]
  exact noDoubleSpace_pyStrip (chain'_collapseSpaces _)

theorem normalize_text_head {t : List Char} {x : Char}
    (h : (normalize_text t).head? = some x) : ¬ x = ' ' :=
  head?_pyStrip h

theorem normalize_text_getLast {t : List Char} {x : Char}
    (h : (normalize_text t).getLast? = some x) : ¬ x = ' ' :=
  getLast?_pyStrip h

theorem normalize_text_eq_self {l : List Char}
    (hmem : ∀ c ∈ l, c ∈ ALLOWED_CHARS)
    (hnds : noDoubleSpace l)
    (h1 : ∀ x, l.head? = some x → ¬ x = ' ')
    (h2 : ∀ x, l.getLast? = some x → ¬ x = ' ') :
    normalize_text l = l := by
  rw [normalize_text, List.map_map]
  have hmap :
      l.map ((fun c => if c ∈ ALLOWED_CHARS then c else ' ') ∘ pyLower) = l := by
    rw [List.map_congr_left (g := fun a => a), List.map_id']
    intro c hc
    simp only [Function.comp]
    rw [pyLower_fixes_allowed c (hmem c hc), if_pos (hmem c hc)]
  rw [hmap, collapseSpaces_eq_self l hnds, pyStrip_eq_self h1 h2]

/-- C4: for every input string, the output of `normalize_text` contains only
Alphabet characters, never contains two consecutive spaces, and has no
leading or trailing space; it is produced by the lowercase / replace /
collapse / trim pipeline that `normalize_text` is defined as. -/
theorem normalize_text_output_wellformed (t : List Char) :
    (∀ c ∈ normalize_text t, c ∈ ALLOWED_CHARS) ∧
      noDoubleSpace (normalize_text t) ∧
      (∀ x, (normalize_text t).head? = some x → ¬ x = ' ') ∧
      (∀ x, (normalize_text t).getLast? = some x → ¬ x = ' ') :=
  ⟨fun _ hc => normalize_text_mem hc, normalize_text_noDoubleSpace t,
    fun _ h => normalize_text_head h, fun _ h => normalize_text_getLast h⟩

/-- C10: `normalize_text` is idempotent. -/
theorem normalize_text_idempotent (t : List Char) :
    normalize_text (normalize_text t) = normalize_text t :=
  normalize_text_eq_self (fun _ hc => normalize_text_mem hc)
    (normalize_text_noDoubleSpace t) (fun _ h => normalize_text_head h)
    (fun _ h => normalize_text_getLast h)

/-! ### Frequency-counter lemmas -/

theorem count_overall_go (text : List Char) :
    ∀ (f : Char → ℕ) (c : Char),
      (text.foldl
        (fun f ch =>
          if ch ∈ ALLOWED_CHARS then (fun c => if c = ch then f ch + 1 else f c)
          else f)
        f) c
        = f c + text.countP (fun ch => decide (ch = c ∧ ch ∈ ALLOWED_CHARS)) := by
  induction text with
  | nil => intro f c; simp
  | cons ch rest ih =>
    intro f c
    rw [List.foldl_cons, ih, List.countP_cons]
    by_cases hA : ch ∈ ALLOWED_CHARS
    · by_cases hc : c = ch
      · subst hc
        simp only [if_pos hA, if_pos rfl, decide_eq_true_eq, hA, and_true,
          if_true]
        omega
      · have hne : ¬(ch = c ∧ ch ∈ ALLOWED_CHARS) := fun hx => hc hx.1.symm
        simp only [if_pos hA, if_neg hc, decide_eq_true_eq, if_neg hne]
        omega
    · have hne : ¬(ch = c ∧ ch ∈ ALLOWED_CHARS) := fun hx => hA hx.2
      simp only [if_neg hA, decide_eq_true_eq, if_neg hne]
      omega

theorem count_overall_spec (text : List Char) (c : Char) :
    count_overall_frequencies text c
      = text.countP (fun ch => decide (ch = c ∧ ch ∈ ALLOWED_CHARS)) := by
  unfold count_overall_frequencies
  rw [count_overall_go]
  omega

theorem sum_countP_chars (is : List Char)
    (haf : ∀ ch ∈ is, ch ∈ ALLOWED_CHARS) :
    ∑ c ∈ ALLOWED_CHARS.toFinset,
      is.countP (fun ch => decide (ch = c ∧ ch ∈ ALLOWED_CHARS)) = is.length := by
  induction is with
  | nil => simp
  | cons ch rest ih =>
    have hch : ch ∈ ALLOWED_CHARS := haf ch (List.mem_cons_self _ _)
    simp only [List.countP_cons]
    rw [Finset.sum_add_distrib, ih (fun x hx => haf x (List.mem_cons_of_mem _ hx))]
    have hcongr : ∀ c ∈ ALLOWED_CHARS.toFinset,
        (if (decide (ch = c ∧ ch ∈ ALLOWED_CHARS)) = true then 1 else 0)
          = (if c = ch then 1 else 0) := by
      intro c _
      by_cases hc : c = ch
      · subst hc; simp [hch]
      · have : ¬(ch = c ∧ ch ∈ ALLOWED_CHARS) := fun hx => hc hx.1.symm
        simp [hc, this]
    rw [Finset.sum_congr rfl hcongr,
      Finset.sum_ite_eq' ALLOWED_CHARS.toFinset ch (fun _ => 1),
      if_pos (List.mem_toFinset.mpr hch), List.length_cons]

/-- C6: for every normalized text (all characters in the alphabet), the
values of `count_overall_frequencies` sum to the length of the text. -/
theorem overall_counts_sum_len (text : List Char)
    (h : ∀ ch ∈ text, ch ∈ ALLOWED_CHARS) :
    ∑ c ∈ ALLOWED_CHARS.toFinset, count_overall_frequencies text c
      = text.length := by
  rw [Finset.sum_congr rfl (fun c _ => count_overall_spec text c)]
  exact sum_countP_chars text h

/-- Witness for C6 at the normalized text `"мама"`. -/
theorem overall_counts_sum_len_witness :
    (∀ ch ∈ ("мама".toList), ch ∈ ALLOWED_CHARS) ∧
      ∑ c ∈ ALLOWED_CHARS.toFinset, count_overall_frequencies "мама".toList c
        = ("мама".toList).length :=
  ⟨by decide, overall_counts_sum_len _ (by decide)⟩

theorem count_markov_go (text : List Char) (n : ℕ) :
    ∀ (is : List ℕ) (f : List Char → Char → ℕ) (c : List Char) (s : Char),
      (is.foldl
        (fun f i =>
          if (∀ x ∈ (text.drop i).take n, x ∈ ALLOWED_CHARS) ∧
              text.getD (i + n) ' ' ∈ ALLOWED_CHARS then
            fun c s =>
              if c = (text.drop i).take n ∧ s = text.getD (i + n) ' ' then
                f ((text.drop i).take n) (text.getD (i + n) ' ') + 1
              else f c s
          else f)
        f) c s
        = f c s + is.countP (fun i =>
            decide ((c = (text.drop i).take n ∧ s = text.getD (i + n) ' ') ∧
              ((∀ x ∈ (text.drop i).take n, x ∈ ALLOWED_CHARS) ∧
                text.getD (i + n) ' ' ∈ ALLOWED_CHARS))) := by
  intro is
  induction is with
  | nil => intro f c s; simp
  | cons i rest ih =>
    intro f c s
    rw [List.foldl_cons, ih, List.countP_cons]
    by_cases hA : (∀ x ∈ (text.drop i).take n, x ∈ ALLOWED_CHARS) ∧
        text.getD (i + n) ' ' ∈ ALLOWED_CHARS
    · by_cases hcs : c = (text.drop i).take n ∧ s = text.getD (i + n) ' '
      · have hf : f ((text.drop i).take n) (text.getD (i + n) ' ') = f c s := by
          rw [← hcs.1, ← hcs.2]
        simp only [if_pos hA, if_pos hcs, hf, decide_eq_true_eq,
          if_pos (And.intro hcs hA)]
        omega
      · have hne : ¬((c = (text.drop i).take n ∧ s = text.getD (i + n) ' ') ∧
            ((∀ x ∈ (text.drop i).take n, x ∈ ALLOWED_CHARS) ∧
              text.getD (i + n) ' ' ∈ ALLOWED_CHARS)) := fun hx => hcs hx.1
        simp only [if_pos hA, if_neg hcs, decide_eq_true_eq, if_neg hne]
        omega
    · have hne : ¬((c = (text.drop i).take n ∧ s = text.getD (i + n) ' ') ∧
          ((∀ x ∈ (text.drop i).take n, x ∈ ALLOWED_CHARS) ∧
            text.getD (i + n) ' ' ∈ ALLOWED_CHARS)) := fun hx => hA hx.2
      simp only [if_neg hA, decide_eq_true_eq, if_neg hne]
      omega

theorem count_markov_spec (text : List Char) (n : ℕ) (c : List Char) (s : Char) :
    count_markov_frequencies text n c s
      = (List.range (text.length - n)).countP (fun i =>
          decide ((c = (text.drop i).take n ∧ s = text.getD (i + n) ' ') ∧
            ((∀ x ∈ (text.drop i).take n, x ∈ ALLOWED_CHARS) ∧
              text.getD (i + n) ' ' ∈ ALLOWED_CHARS))) := by
  unfold count_markov_frequencies
  rw [count_markov_go]
  omega

theorem allowed_of_range (text : List Char) (n : ℕ)
    (h : ∀ ch ∈ text, ch ∈ ALLOWED_CHARS) {i : ℕ}
    (hi : i ∈ List.range (text.length - n)) :
    (∀ x ∈ (text.drop i).take n, x ∈ ALLOWED_CHARS) ∧
      text.getD (i + n) ' ' ∈ ALLOWED_CHARS := by
  have hi' : i < text.length - n := List.mem_range.mp hi
  have hin : i + n < text.length := by omega
  constructor
  · intro x hx
    exact h x ((List.drop_sublist i text).subset
      ((List.take_sublist n (text.drop i)).subset hx))
  · rw [List.getD_eq_getElem _ _ hin]
    exact h _ (List.getElem_mem hin)

theorem count_markov_spec_normalized (text : List Char) (n : ℕ)
    (h : ∀ ch ∈ text, ch ∈ ALLOWED_CHARS) (c : List Char) (s : Char) :
    count_markov_frequencies text n c s
      = (List.range (text.length - n)).countP (fun i =>
          decide (c = (text.drop i).take n ∧ s = text.getD (i + n) ' ')) := by
  rw [count_markov_spec]
  apply List.countP_congr
  intro i hi
  simp only [decide_eq_true_eq]
  constructor
  · intro hx; exact hx.1
  · intro hx; exact ⟨hx, allowed_of_range text n h hi⟩

theorem sum_countP_pairs (text : List Char) (n : ℕ) (c : List Char)
    (is : List ℕ)
    (hnext : ∀ i ∈ is, text.getD (i + n) ' ' ∈ ALLOWED_CHARS) :
    ∑ s ∈ ALLOWED_CHARS.toFinset,
        is.countP (fun i =>
          decide (c = (text.drop i).take n ∧ s = text.getD (i + n) ' '))
      = is.countP (fun i => decide ((text.drop i).take n = c)) := by
  induction is with
  | nil => simp
  | cons i rest ih =>
    have hi : text.getD (i + n) ' ' ∈ ALLOWED_CHARS :=
      hnext i (List.mem_cons_self _ _)
    simp only [List.countP_cons]
    rw [Finset.sum_add_distrib, ih (fun j hj => hnext j (List.mem_cons_of_mem _ hj))]
    by_cases hsl : c = (text.drop i).take n
    · have hcongr : ∀ s ∈ ALLOWED_CHARS.toFinset,
          (if (decide (c = (text.drop i).take n ∧ s = text.getD (i + n) ' ')) = true
            then 1 else 0)
            = (if s = text.getD (i + n) ' ' then 1 else 0) := by
        intro s _
        by_cases hs : s = text.getD (i + n) ' '
        · rw [if_pos (decide_eq_true ⟨hsl, hs⟩), if_pos hs]
        · rw [if_neg (fun h => hs (of_decide_eq_true h).2), if_neg hs]
      rw [Finset.sum_congr rfl hcongr,
        Finset.sum_ite_eq' ALLOWED_CHARS.toFinset (text.getD (i + n) ' ')
          (fun _ => 1),
        if_pos (List.mem_toFinset.mpr hi),
        if_pos (decide_eq_true hsl.symm)]
    · have hcongr : ∀ s ∈ ALLOWED_CHARS.toFinset,
          (if (decide (c = (text.drop i).take n ∧ s = text.getD (i + n) ' ')) = true
            then 1 else 0) = 0 := by
        intro s _
        rw [if_neg (fun h => hsl (of_decide_eq_true h).1)]
      rw [Finset.sum_congr rfl hcongr, Finset.sum_const_zero,
        if_neg (fun h => hsl (of_decide_eq_true h).symm)]

/-- C5: for every order n in 1..13 and context c present in the order-n
frequency table of a normalized text, the counts for c summed over all
symbols equal the number of start indices `i ∈ [0, len(text) - n)` at which
c occurs in the text (occurrences immediately followed by some character). -/
theorem markov_counts_sum (text : List Char) (n : ℕ) (c : List Char)
    (_hn1 : 1 ≤ n) (_hn13 : n ≤ 13)
    (hnorm : ∀ ch ∈ text, ch ∈ ALLOWED_CHARS)
    (_hpres : ∃ s, 0 < count_markov_frequencies text n c s) :
    ∑ s ∈ ALLOWED_CHARS.toFinset, count_markov_frequencies text n c s
      = (List.range (text.length - n)).countP
          (fun i => decide ((text.drop i).take n = c)) := by
  rw [Finset.sum_congr rfl
    (fun s _ => count_markov_spec_normalized text n hnorm c s)]
  exact sum_countP_pairs text n c _
    (fun i hi => (allowed_of_range text n hnorm hi).2)

/-- Witness for C5: the spec's own example, normalized text `"мама"` with
n = 1 and context `"м"` (which occurs twice before the end). -/
theorem markov_counts_sum_witness :
    (1 ≤ 1 ∧ 1 ≤ 13 ∧ (∀ ch ∈ ("мама".toList), ch ∈ ALLOWED_CHARS) ∧
        0 < count_markov_frequencies "мама".toList 1 ['м'] 'а') ∧
      ∑ s ∈ ALLOWED_CHARS.toFinset,
          count_markov_frequencies "мама".toList 1 ['м'] s
        = (List.range ("мама".toList.length - 1)).countP
            (fun i => decide (("мама".toList.drop i).take 1 = ['м'])) :=
  ⟨⟨le_refl 1, by omega, by decide, by decide⟩,
    markov_counts_sum _ 1 _ (le_refl 1) (by omega) (by decide)
      ⟨'а', by decide⟩⟩

/-! ### Frequency-store lemmas -/

theorem chunkedInsert_eq_append :
    ∀ (k : ℕ) (data table : List (List Char × Char × ℕ)), data.length ≤ k →
      chunkedInsert table data = table ++ data := by
  intro k
  induction k with
  | zero =>
    intro data table h
    have hdata : data = [] := List.length_eq_zero.mp (Nat.le_zero.mp h)
    subst hdata
    rw [chunkedInsert]
    simp
  | succ m ih =>
    intro data table h
    rw [chunkedInsert]
    by_cases hd : data = []
    · rw [if_pos hd, hd, List.append_nil]
    · have hlen : (data.drop 10000).length ≤ m := by
        rw [List.length_drop]
        have : 0 < data.length := List.length_pos.mpr hd
        omega
      rw [if_neg hd, ih _ _ hlen, List.append_assoc, List.take_append_drop]

theorem save_eq_bulk (db : MarkovDB) (n : ℕ)
    (frequencies : List (List Char × List (Char × ℕ))) :
    save_markov_frequencies db n frequencies
      = save_markov_frequencies_bulk db n frequencies := by
  unfold save_markov_frequencies save_markov_frequencies_bulk
  congr 1
  funext m
  by_cases hm : m = n
  · rw [if_pos hm, if_pos hm,
      chunkedInsert_eq_append (markovTableRows frequencies).length _ _ (le_refl _),
      List.nil_append]
  · rw [if_neg hm, if_neg hm]

theorem filter_context_all (c : List Char) :
    ∀ syms : List (Char × ℕ),
      (syms.map (fun q => (c, q.1, q.2))).filter (fun r => r.1 = c)
        = syms.map (fun q => (c, q.1, q.2))
  | [] => rfl
  | q :: qs => by
    rw [List.map_cons, List.filter_cons_of_pos (by simp), filter_context_all c qs]

theorem filter_context_none {c c' : List Char} (h : ¬ c' = c) :
    ∀ syms : List (Char × ℕ),
      (syms.map (fun q => (c', q.1, q.2))).filter (fun r => r.1 = c) = []
  | [] => rfl
  | q :: qs => by
    rw [List.map_cons, List.filter_cons_of_neg (by simpa using h),
      filter_context_none h qs]

theorem markovTableRows_cons (c' : List Char) (syms' : List (Char × ℕ))
    (rest : List (List Char × List (Char × ℕ))) :
    markovTableRows ((c', syms') :: rest)
      = syms'.map (fun q => (c', q.1, q.2)) ++ markovTableRows rest := by
  simp only [markovTableRows, List.flatMap_cons]

theorem filter_rows_of_not_mem :
    ∀ (T : List (List Char × List (Char × ℕ))) (c : List Char),
      c ∉ T.map Prod.fst →
      (markovTableRows T).filter (fun r => r.1 = c) = []
  | [], _, _ => rfl
  | (c', syms') :: rest, c, h => by
    have hc' : ¬ c' = c := by
      intro hx
      exact h (hx ▸ List.mem_map_of_mem Prod.fst (List.mem_cons_self _ _))
    rw [markovTableRows_cons, List.filter_append,
      filter_context_none hc' syms',
      filter_rows_of_not_mem rest c (fun hx => h (List.mem_cons_of_mem _ hx)),
      List.append_nil]

theorem filter_rows_of_mem :
    ∀ (T : List (List Char × List (Char × ℕ))) (c : List Char)
      (syms : List (Char × ℕ)),
      (T.map Prod.fst).Nodup → (c, syms) ∈ T →
      (markovTableRows T).filter (fun r => r.1 = c)
        = syms.map (fun q => (c, q.1, q.2))
  | [], _, _, _, hmem => absurd hmem (List.not_mem_nil _)
  | (c', syms') :: rest, c, syms, hnodup, hmem => by
    rw [List.map_cons] at hnodup
    have hnd := List.nodup_cons.mp hnodup
    rcases List.mem_cons.mp hmem with h1 | h2
    · have hc : c' = c := (congrArg Prod.fst h1).symm
      have hs : syms' = syms := (congrArg Prod.snd h1).symm
      subst hc; subst hs
      rw [markovTableRows_cons, List.filter_append,
        filter_context_all c' syms',
        filter_rows_of_not_mem rest c' hnd.1, List.append_nil]
    · have hcrest : c ∈ rest.map Prod.fst :=
        List.mem_map_of_mem Prod.fst h2
      have hc' : ¬ c' = c := fun hx => hnd.1 (hx ▸ hcrest)
      rw [markovTableRows_cons, List.filter_append,
        filter_context_none hc' syms',
        filter_rows_of_mem rest c syms hnd.2 h2, List.nil_append]

theorem save_markov_apply (db : MarkovDB) (n : ℕ)
    (T : List (List Char × List (Char × ℕ))) :
    (save_markov_frequencies db n T).markov n
      = chunkedInsert [] (markovTableRows T) := by
  unfold save_markov_frequencies
  simp

theorem rowsFor_save (db : MarkovDB) (n : ℕ)
    (T : List (List Char × List (Char × ℕ))) (c : List Char) :
    rowsFor (save_markov_frequencies db n T) n c
      = (markovTableRows T).filter (fun r => r.1 = c) := by
  unfold rowsFor
  rw [save_markov_apply,
    chunkedInsert_eq_append (markovTableRows T).length _ _ (le_refl _),
    List.nil_append]

/-- C1 counterexample: store `{'м': {'а': 2}}` in the order-1 table, then
query context `'м'`.  The code returns the normalized value `{'а': 1.0}`
(2 divided by the total 2), not the stored count mapping `{'а': 2}`. -/
theorem markov_roundtrip_counterexample :
    get_markov_probabilities (save_markov_frequencies dbOrder1 1 tableT0) 1 ['м']
        = [('а', (1 : ℚ))]
      ∧ ¬ get_markov_probabilities (save_markov_frequencies dbOrder1 1 tableT0) 1 ['м']
          = [('а', (2 : ℚ))] := by
  have h1 : get_markov_probabilities (save_markov_frequencies dbOrder1 1 tableT0)
      1 ['м'] = [('а', (1 : ℚ))] := by
    rw [get_markov_probabilities, rowsFor_save]
    simp [markovTableRows, tableT0, totalFor, rowsFor_save]
  refine ⟨h1, ?_⟩
  rw [h1]
  intro h2
  have := List.head_eq_of_cons_eq h2
  simp at this

/-- C1 (amended): after `save_markov_frequencies` (or the bulk variant)
replaces the order-n table with table T, querying a context c of T returns
T's rows for c with each count divided by their total (the normalized
distribution), and querying any context not in T returns an empty mapping. -/
theorem markov_roundtrip (db : MarkovDB) (n : ℕ)
    (T : List (List Char × List (Char × ℕ))) (c : List Char)
    (syms : List (Char × ℕ))
    (_hn1 : 1 ≤ n) (_hn13 : n ≤ 13)
    (hnodup : (T.map Prod.fst).Nodup)
    (hmem : (c, syms) ∈ T) (hne : syms ≠ []) :
    (get_markov_probabilities (save_markov_frequencies db n T) n c
        = syms.map (fun q =>
            (q.1,
              if 0 < (syms.map (fun q => q.2)).sum then
                (q.2 : ℚ) / (((syms.map (fun q => q.2)).sum : ℕ) : ℚ)
              else 0))
      ∧ get_markov_probabilities (save_markov_frequencies_bulk db n T) n c
        = syms.map (fun q =>
            (q.1,
              if 0 < (syms.map (fun q => q.2)).sum then
                (q.2 : ℚ) / (((syms.map (fun q => q.2)).sum : ℕ) : ℚ)
              else 0)))
    ∧ ∀ c' : List Char, c' ∉ T.map Prod.fst →
        get_markov_probabilities (save_markov_frequencies db n T) n c' = []
        ∧ get_markov_probabilities (save_markov_frequencies_bulk db n T) n c' = [] := by
  have hrows : rowsFor (save_markov_frequencies db n T) n c
      = syms.map (fun q => (c, q.1, q.2)) := by
    rw [rowsFor_save, filter_rows_of_mem T c syms hnodup hmem]
  have htot : totalFor (save_markov_frequencies db n T) n c
      = (syms.map (fun q => q.2)).sum := by
    unfold totalFor
    rw [hrows, List.map_map]
    rfl
  have hnil : rowsFor (save_markov_frequencies db n T) n c ≠ [] := by
    rw [hrows]
    exact fun h0 => hne (List.map_eq_nil_iff.mp h0)
  have hbat : get_markov_probabilities (save_markov_frequencies db n T) n c
      = syms.map (fun q =>
          (q.1,
            if 0 < (syms.map (fun q => q.2)).sum then
              (q.2 : ℚ) / (((syms.map (fun q => q.2)).sum : ℕ) : ℚ)
            else 0)) := by
    rw [get_markov_probabilities, if_neg hnil, htot, hrows, List.map_map]
    rfl
  refine ⟨⟨hbat, by rw [← save_eq_bulk]; exact hbat⟩, ?_⟩
  intro c' hc'
  have h0 : rowsFor (save_markov_frequencies db n T) n c' = [] := by
    rw [rowsFor_save]
    exact filter_rows_of_not_mem T c' hc'
  constructor
  · rw [get_markov_probabilities, if_pos h0]
  · rw [← save_eq_bulk, get_markov_probabilities, if_pos h0]

/-- Witness for C1 (amended) at the table `{'м': {'а': 2}}`. -/
theorem markov_roundtrip_witness :
    (1 ≤ 1 ∧ 1 ≤ 13 ∧ (tableT0.map Prod.fst).Nodup ∧
        (['м'], [('а', 2)]) ∈ tableT0 ∧ [('а', 2)] ≠ ([] : List (Char × ℕ))) ∧
      get_markov_probabilities (save_markov_frequencies dbOrder1 1 tableT0) 1 ['м']
        = [('а', 2)].map (fun q =>
            (q.1,
              if 0 < ([('а', 2)].map (fun q => q.2)).sum then
                (q.2 : ℚ) / ((([('а', 2)].map (fun q => q.2)).sum : ℕ) : ℚ)
              else 0)) :=
  ⟨⟨le_refl 1, by omega, by decide, by decide, by decide⟩,
    (markov_roundtrip dbOrder1 1 tableT0 ['м'] [('а', 2)] (le_refl 1) (by omega)
      (by decide) (by decide) (by decide)).1.1⟩

/-- C2 counterexample: with the order-1 row `('а', 'м', 2)` stored, the
distribution handed to the sampler for context `'а'` is `{'м': 1.0}` — the
count divided by the total — and not the raw stored count `{'м': 2}`. -/
theorem sampler_weights_counterexample :
    get_probabilities dbOrder1 ['а'] = [('м', (1 : ℚ))]
      ∧ ¬ get_probabilities dbOrder1 ['а'] = [('м', (2 : ℚ))] := by
  have h1 : get_probabilities dbOrder1 ['а'] = [('м', (1 : ℚ))] := by
    simp [get_probabilities, get_markov_probabilities, rowsFor, totalFor, dbOrder1]
  refine ⟨h1, ?_⟩
  rw [h1]
  intro h2
  have := List.head_eq_of_cons_eq h2
  simp at this

/-- C2 (amended): in each generation step the symbol is sampled from the
stored distribution of the current context with probability proportional to
its raw count, but the weights handed to the sampler are the counts divided
by their total (pre-normalized probabilities), not the raw counts: each
weight times the row total recovers the raw count. -/
theorem sampler_weights_normalized (db : MarkovDB)
    (pick : List (Char × ℚ) → Char) (ctx : List Char)
    (hne : ctx ≠ []) (hp : get_probabilities db ctx ≠ []) :
    (genStep db pick ctx).1 = pick (get_probabilities db ctx)
    ∧ get_probabilities db ctx
        = (rowsFor db ctx.length ctx).map
            (fun r =>
              (r.2.1,
                if 0 < totalFor db ctx.length ctx then
                  (r.2.2 : ℚ) / (totalFor db ctx.length ctx : ℚ)
                else 0))
    ∧ ∀ r ∈ rowsFor db ctx.length ctx, 0 < totalFor db ctx.length ctx →
        ((r.2.2 : ℚ) / (totalFor db ctx.length ctx : ℚ))
            * (totalFor db ctx.length ctx : ℚ) = (r.2.2 : ℚ) := by
  have hcond : ¬(ctx.length = 0 ∨ 13 < ctx.length) := by
    intro hx
    exact hp (by rw [get_probabilities, if_pos hx])
  have hrows : rowsFor db ctx.length ctx ≠ [] := by
    intro h0
    exact hp (by rw [get_probabilities, if_neg hcond, get_markov_probabilities,
      if_pos h0])
  refine ⟨?_, ?_, ?_⟩
  · have hb : backoff db ctx = (get_probabilities db ctx, ctx) := by
      cases ctx with
      | nil => exact absurd rfl hne
      | cons c rest =>
        rw [backoff, if_neg (fun hx => hp hx.1)]
    simp only [genStep, hb]
    rw [if_neg hp, if_neg hp]
  · rw [get_probabilities, if_neg hcond, get_markov_probabilities, if_neg hrows]
  · intro r _ htot
    have hz : (totalFor db ctx.length ctx : ℚ) ≠ 0 := by
      exact_mod_cast Nat.pos_iff_ne_zero.mp htot
    exact div_mul_cancel₀ _ hz

/-- Witness for C2 (amended) at the order-1 row `('а', 'м', 2)`. -/
theorem sampler_weights_normalized_witness :
    (['а'] ≠ ([] : List Char) ∧ get_probabilities dbOrder1 ['а'] ≠ []) ∧
      (genStep dbOrder1 pickFst ['а']).1 = pickFst (get_probabilities dbOrder1 ['а']) := by
  have h1 : get_probabilities dbOrder1 ['а'] = [('м', (1 : ℚ))] := by
    simp [get_probabilities, get_markov_probabilities, rowsFor, totalFor, dbOrder1]
  have hp : get_probabilities dbOrder1 ['а'] ≠ [] := by
    rw [h1]
    simp
  exact ⟨⟨by simp, hp⟩,
    (sampler_weights_normalized dbOrder1 pickFst ['а'] (by simp) hp).1⟩

/-- C9: the lookup entry point rejects contexts of length 0 or above 13 with
an empty mapping, independently of the state of the store. -/
theorem get_probabilities_guard (db : MarkovDB) (ctx : List Char)
    (h : ctx.length = 0 ∨ 13 < ctx.length) :
    get_probabilities db ctx = []
      ∧ ∀ db2 : MarkovDB, get_probabilities db ctx = get_probabilities db2 ctx := by
  constructor
  · rw [get_probabilities, if_pos h]
  · intro db2
    rw [get_probabilities, if_pos h, get_probabilities, if_pos h]

/-- Witness for C9 at a 14-character context. -/
theorem get_probabilities_guard_witness :
    ((List.replicate 14 'а').length = 0 ∨ 13 < (List.replicate 14 'а').length) ∧
      get_probabilities dbOrder1 (List.replicate 14 'а') = [] :=
  ⟨by norm_num, (get_probabilities_guard dbOrder1 _ (by norm_num)).1⟩

/-! ### Generator lemmas -/

theorem backoff_drop_head (db : MarkovDB) (c : Char) (rest : List Char)
    (hp : get_probabilities db (c :: rest) = []) (hrest : rest ≠ []) :
    backoff db (c :: rest) = backoff db rest := by
  rw [backoff, if_pos ⟨hp, hrest⟩]

theorem backoff_of_probs_ne (db : MarkovDB) :
    ∀ {ctx : List Char}, ctx ≠ [] → get_probabilities db ctx ≠ [] →
      backoff db ctx = (get_probabilities db ctx, ctx)
  | [], h, _ => absurd rfl h
  | _ :: _, _, hp => by
    rw [backoff, if_neg (fun hx => hp hx.1)]

theorem backoff_all_empty (db : MarkovDB) :
    ∀ ctx : List Char,
      (∀ t, t <:+ ctx → t ≠ [] → get_probabilities db t = []) →
      (backoff db ctx).1 = []
  | [], _ => by
    simp [backoff, get_probabilities]
  | c :: rest, h => by
    by_cases hrest : rest = []
    · subst hrest
      rw [backoff, if_neg (fun hx => hx.2 rfl)]
      exact h [c] (List.suffix_refl _) (by simp)
    · have hp : get_probabilities db (c :: rest) = [] :=
        h _ (List.suffix_refl _) (by simp)
      rw [backoff_drop_head db c rest hp hrest]
      exact backoff_all_empty db rest
        (fun t ht htne => h t (ht.trans (List.suffix_cons c rest)) htne)

theorem backoff_longest (db : MarkovDB) :
    ∀ (ctx t : List Char), t <:+ ctx → t ≠ [] →
      (∀ u, u <:+ ctx → t.length < u.length → get_probabilities db u = []) →
      get_probabilities db t ≠ [] →
      backoff db ctx = (get_probabilities db t, t)
  | [], t, ht, htne, _, _ => absurd (List.suffix_nil.mp ht) htne
  | c :: rest, t, ht, htne, hlong, hp => by
    by_cases hct : t = c :: rest
    · subst hct
      exact backoff_of_probs_ne db (by simp) hp
    · have htr : t <:+ rest := by
        rcases List.suffix_cons_iff.mp ht with h1 | h2
        · exact absurd h1 hct
        · exact h2
      have hrest : rest ≠ [] := by
        intro h0
        subst h0
        exact htne (List.suffix_nil.mp htr)
      have hpc : get_probabilities db (c :: rest) = [] := by
        apply hlong (c :: rest) (List.suffix_refl _)
        have := htr.length_le
        simp only [List.length_cons]
        omega
      rw [backoff_drop_head db c rest hpc hrest]
      exact backoff_longest db rest t htr htne
        (fun u hu hlu => hlong u (hu.trans (List.suffix_cons c rest)) hlu) hp

/-- C3: in each generation step, an empty result for a context longer than
one character makes the loop drop the context's leading character and retry;
the distribution actually sampled is the one of the longest seen suffix of
the context; the overall distribution is used only when every nonempty
suffix is unseen; and when even the overall table is empty the step emits
the fixed default `' '` with no sampling at all. -/
theorem generation_backoff_order (db : MarkovDB)
    (pick : List (Char × ℚ) → Char) (ctx : List Char) :
    (get_probabilities db ctx = [] → 1 < ctx.length →
        backoff db ctx = backoff db ctx.tail)
    ∧ (∀ t, t <:+ ctx → t ≠ [] →
        (∀ u, u <:+ ctx → t.length < u.length → get_probabilities db u = []) →
        get_probabilities db t ≠ [] →
        (genStep db pick ctx).1 = pick (get_probabilities db t))
    ∧ ((∀ t, t <:+ ctx → t ≠ [] → get_probabilities db t = []) →
        (get_overall_probabilities db ≠ [] →
          (genStep db pick ctx).1 = pick (get_overall_probabilities db))
        ∧ (get_overall_probabilities db = [] →
          (genStep db pick ctx).1 = ' ')) := by
  refine ⟨?_, ?_, ?_⟩
  · intro hp hlen
    cases ctx with
    | nil => simp at hlen
    | cons c rest =>
      have hrest : rest ≠ [] := by
        intro h0
        subst h0
        simp at hlen
      exact backoff_drop_head db c rest hp hrest
  · intro t ht htne hlong hp
    have hb := backoff_longest db ctx t ht htne hlong hp
    simp only [genStep, hb]
    rw [if_neg hp, if_neg hp]
  · intro hall
    have hb : (backoff db ctx).1 = [] := backoff_all_empty db ctx hall
    constructor
    · intro hov
      simp only [genStep]
      rw [hb, if_pos rfl, if_neg hov]
    · intro hov
      simp only [genStep]
      rw [hb, if_pos rfl, hov, if_pos rfl]

/-- Witness for C3: the order-1 context `'а'` is seen in `dbOrder1`, so the
step samples from its distribution. -/
theorem generation_backoff_order_witness :
    (['а'] <:+ ['а'] ∧ ['а'] ≠ ([] : List Char) ∧
        get_probabilities dbOrder1 ['а'] ≠ []) ∧
      (genStep dbOrder1 pickFst ['а']).1
        = pickFst (get_probabilities dbOrder1 ['а']) := by
  have h1 : get_probabilities dbOrder1 ['а'] = [('м', (1 : ℚ))] := by
    simp [get_probabilities, get_markov_probabilities, rowsFor, totalFor, dbOrder1]
  have hp : get_probabilities dbOrder1 ['а'] ≠ [] := by
    rw [h1]
    simp
  have hlong : ∀ u, u <:+ ['а'] → (['а'] : List Char).length < u.length →
      get_probabilities dbOrder1 u = [] := by
    intro u hu hlu
    have := hu.length_le
    simp at this hlu
    omega
  exact ⟨⟨List.suffix_refl _, by simp, hp⟩,
    (generation_backoff_order dbOrder1 pickFst ['а']).2.1 ['а']
      (List.suffix_refl _) (by simp) hlong hp⟩

theorem genLoop_acc (db : MarkovDB) (pick : ℕ → List (Char × ℚ) → Char) :
    ∀ (k i : ℕ) (result ctx : List Char),
      genLoop db pick i k result ctx = result ++ genLoop db pick i k [] ctx
  | 0, _, _, _ => by simp [genLoop]
  | k + 1, i, result, ctx => by
    simp only [genLoop]
    rw [genLoop_acc db pick k (i + 1) (result ++ [(genStep db (pick i) ctx).1]) _,
      genLoop_acc db pick k (i + 1) ([] ++ [(genStep db (pick i) ctx).1]) _]
    simp

theorem genLoop_length (db : MarkovDB) (pick : ℕ → List (Char × ℚ) → Char) :
    ∀ (k i : ℕ) (ctx : List Char), (genLoop db pick i k [] ctx).length = k
  | 0, _, _ => by simp [genLoop]
  | k + 1, i, ctx => by
    simp only [genLoop]
    rw [genLoop_acc db pick k (i + 1) ([] ++ [(genStep db (pick i) ctx).1]) _]
    simp [genLoop_length db pick k (i + 1)]

/-- C7: `generate_text` returns the full seed unchanged (however long),
followed by exactly `length` appended symbols, and the appended symbols
depend on the seed only through its last `min(len(seed), 13)` characters —
the initial sampling context. -/
theorem generate_text_shape (db : MarkovDB) (pick : ℕ → List (Char × ℚ) → Char)
    (seed : List Char) (len : ℕ) :
    (generate_text db pick seed len).take seed.length = seed
    ∧ (generate_text db pick seed len).length = seed.length + len
    ∧ ∀ seed2 : List Char,
        seed2.drop (seed2.length - min seed2.length 13)
            = seed.drop (seed.length - min seed.length 13) →
        generate_text db pick seed2 len
          = seed2 ++ (generate_text db pick seed len).drop seed.length := by
  have hgen : ∀ s : List Char, generate_text db pick s len
      = s ++ genLoop db pick 0 len [] (s.drop (s.length - min s.length 13)) := by
    intro s
    rw [generate_text, genLoop_acc]
  refine ⟨?_, ?_, ?_⟩
  · rw [hgen seed, List.take_left]
  · rw [hgen seed, List.length_append, genLoop_length]
  · intro seed2 h2
    rw [hgen seed2, hgen seed, h2, List.drop_left]

/-- Witness for C7 with a 14-character seed (longer than the 13-character
context window): the full seed is kept and two symbols are appended. -/
theorem generate_text_shape_witness :
    (generate_text dbOrder1 pickFstSeq (List.replicate 14 'а') 2).take
        (List.replicate 14 'а').length = List.replicate 14 'а'
    ∧ (generate_text dbOrder1 pickFstSeq (List.replicate 14 'а') 2).length
        = (List.replicate 14 'а').length + 2
    ∧ generate_text dbOrder1 pickFstSeq (List.replicate 14 'а') 2
        = List.replicate 14 'а'
          ++ (generate_text dbOrder1 pickFstSeq (List.replicate 14 'а') 2).drop
              (List.replicate 14 'а').length := by
  obtain ⟨h1, h2, h3⟩ :=
    generate_text_shape dbOrder1 pickFstSeq (List.replicate 14 'а') 2
  exact ⟨h1, h2, h3 (List.replicate 14 'а') rfl⟩

/-! ### Bulk-load transaction lemmas -/

theorem runOps_committed_of_no_commit :
    ∀ (ops : List DBOp) (s : TxState),
      (∀ op ∈ ops, op ≠ DBOp.commit) →
      (runOps s ops).committed = s.committed
  | [], _, _ => rfl
  | op :: rest, s, h => by
    have h1 : (applyOp s op).committed = s.committed := by
      cases op with
      | truncate => rfl
      | insert r => rfl
      | commit => exact absurd rfl (h _ (List.mem_cons_self _ _))
    have h2 := runOps_committed_of_no_commit rest (applyOp s op)
      (fun op' hop' => h op' (List.mem_cons_of_mem _ hop'))
    calc (runOps s (op :: rest)).committed
        = (runOps (applyOp s op) rest).committed := rfl
      _ = (applyOp s op).committed := h2
      _ = s.committed := h1

/-- C8: a storage failure at any point during the bulk load — after the
`TRUNCATE` and any number of staged COPY rows, but before the single final
`commit` — triggers the rollback, leaving the previously committed rows of
the table untouched: no partial rows of the new table are persisted. -/
theorem bulk_load_atomic (s : TxState)
    (frequencies : List (List Char × List (Char × ℕ))) (k : ℕ)
    (hk : k ≤ (markovTableRows frequencies).length + 1) :
    runWithFailureAt s (bulkLoadOps frequencies) k = s.committed := by
  rw [runWithFailureAt]
  apply runOps_committed_of_no_commit
  intro op hop
  have hre : bulkLoadOps frequencies
      = (DBOp.truncate :: (markovTableRows frequencies).map DBOp.insert)
          ++ [DBOp.commit] := by
    rw [bulkLoadOps, List.cons_append]
  rw [hre, List.take_append_of_le_length (by simp; omega)] at hop
  have hmem := List.take_subset k _ hop
  rcases List.mem_cons.mp hmem with h1 | h2
  · subst h1
    exact fun hx => DBOp.noConfusion hx
  · rcases List.mem_map.mp h2 with ⟨r, _, hr⟩
    rw [← hr]
    exact fun hx => DBOp.noConfusion hx

/-- Witness for C8: failure right after the `TRUNCATE` (k = 1) leaves the
old row of the table committed. -/
theorem bulk_load_atomic_witness :
    (1 ≤ (markovTableRows tableT0).length + 1) ∧
      runWithFailureAt ⟨[(['х'], 'х', 7)], [(['х'], 'х', 7)]⟩
          (bulkLoadOps tableT0) 1
        = [(['х'], 'х', 7)] :=
  ⟨by omega,
    bulk_load_atomic ⟨[(['х'], 'х', 7)], [(['х'], 'х', 7)]⟩ tableT0 1 (by omega)⟩

/-- Witness for C4 at the spec's own example input. -/
theorem normalize_text_output_wellformed_witness :
    (∀ c ∈ normalize_text ("Привет, МИР!!".toList), c ∈ ALLOWED_CHARS) ∧
      noDoubleSpace (normalize_text ("Привет, МИР!!".toList)) ∧
      (∀ x, (normalize_text ("Привет, МИР!!".toList)).head? = some x → ¬ x = ' ') ∧
      (∀ x, (normalize_text ("Привет, МИР!!".toList)).getLast? = some x → ¬ x = ' ') :=
  normalize_text_output_wellformed ("Привет, МИР!!".toList)

/-- Witness for C10 at the spec's own example input. -/
theorem normalize_text_idempotent_witness :
    normalize_text (normalize_text ("Привет, МИР!!".toList))
      = normalize_text ("Привет, МИР!!".toList) :=
  normalize_text_idempotent ("Привет, МИР!!".toList)
